import Mathlib

/-!
Shallow embedding of the entropy-coding core of the EE-555 final project
(`src/Code/src/rans.cpp`, `src/Code/src/cabac.cpp`) and verification of the
specification's claims about it.

Conventions of the embedding:
* C++ `uint32_t` values are `Nat` reduced `% 2 ^ 32` exactly where the source
  can overflow; `uint16_t` casts are `% 2 ^ 16`; `uint8_t` bytes are `Nat`
  values `< 256` (the decoders' theorems hypothesise byte-valued streams,
  matching the C++ input type `vector<uint8_t>`).
* Fallible functions return `Except String α` carrying the exact
  `std::runtime_error` message of the source.  Two situations in which the
  source's `while` loops would not terminate (a zero frequency reaching the
  rANS renormalization loop, and the range coder's renormalization with
  `range = 0`) are modelled by explicit error values, and C++ undefined
  behaviour (`range / total` with `total = 0` after 32-bit wrap-around) is
  modelled by an explicit division-by-zero error.
* All loops are structural recursions.  Renormalization loops take an explicit
  bound on the number of iterations that is proved (or immediate) to dominate
  the source loop's iteration count on every reachable state, so the bounded
  recursion computes exactly the source loop.
-/

instance {ε α : Type} [DecidableEq ε] [DecidableEq α] : DecidableEq (Except ε α) :=
  fun x y =>
    match x, y with
    | .ok a, .ok b => if h : a = b then .isTrue (by rw [h]) else .isFalse (by simp [h])
    | .error e, .error e' => if h : e = e' then .isTrue (by rw [h]) else .isFalse (by simp [h])
    | .ok _, .error _ => .isFalse (by simp)
    | .error _, .ok _ => .isFalse (by simp)

/-- `2 ^ 32`, the modulus of C++ `uint32_t` arithmetic. -/
def W32 : Nat := 2 ^ 32

/-- 32-bit left shift by `n` bits: C++ `(x << n)` on `uint32_t`. -/
def shl32 (x n : Nat) : Nat := (x * 2 ^ n) % W32

/-- 32-bit addition: C++ `a + b` on `uint32_t`. -/
def add32 (a b : Nat) : Nat := (a + b) % W32

/-- 32-bit subtraction (wrapping): C++ `a - b` on `uint32_t` for `a b < 2 ^ 32`. -/
def sub32 (a b : Nat) : Nat := (a + W32 - b) % W32

/-- `writeU32LE` of `rans.cpp` / `cabac.cpp`: the four little-endian bytes of
a 32-bit value, in the order they are pushed onto the output buffer. -/
def writeU32LE (v : Nat) : List Nat :=
  [v % 256, v / 2 ^ 8 % 256, v / 2 ^ 16 % 256, v / 2 ^ 24 % 256]

/-- `writeU16LE` of `rans.cpp`: the two little-endian bytes of a 16-bit value. -/
def writeU16LE (v : Nat) : List Nat :=
  [v % 256, v / 2 ^ 8 % 256]

/-- Value of the 32-bit little-endian field at byte offset `off`; the callers
below only use it at offsets whose four bytes are in range, which is exactly
when the source's `readU32LE` does not throw. -/
def readU32LEat (s : List Nat) (off : Nat) : Nat :=
  s.getD off 0 + s.getD (off + 1) 0 * 2 ^ 8 +
    s.getD (off + 2) 0 * 2 ^ 16 + s.getD (off + 3) 0 * 2 ^ 24

/-- Value of the 16-bit little-endian field at byte offset `off`. -/
def readU16LEat (s : List Nat) (off : Nat) : Nat :=
  s.getD off 0 + s.getD (off + 1) 0 * 2 ^ 8

/-- The rANS renormalization lower bound `RANS_L = 1u << 23` of `rans.cpp`. -/
def RANS_L : Nat := 2 ^ 23

/-- The rANS total frequency `TOTFREQ = 1u << 12 = 4096` of `rans.cpp`. -/
def TOTFREQ : Nat := 2 ^ 12

/-- A quadruple of 32-bit values: the `std::array<...,4>` tables
(`counts`, `freqRaw`, `freq`, `cum`) of `rans.cpp`. -/
structure Tab4 where
  f0 : Nat
  f1 : Nat
  f2 : Nat
  f3 : Nat
deriving Repr, DecidableEq

/-- Array indexing `t[k]`; every use in the source has `k < 4`. -/
def Tab4.get (t : Tab4) (k : Nat) : Nat :=
  if k = 0 then t.f0 else if k = 1 then t.f1 else if k = 2 then t.f2 else t.f3

/-- Decrement entry `k` by one (`freqRaw[maxIdx]--` of `rans.cpp`). -/
def Tab4.dec (t : Tab4) (k : Nat) : Tab4 :=
  if k = 0 then { t with f0 := t.f0 - 1 }
  else if k = 1 then { t with f1 := t.f1 - 1 }
  else if k = 2 then { t with f2 := t.f2 - 1 }
  else { t with f3 := t.f3 - 1 }

/-- One iteration of the scan of `rans.cpp` lines 97-102:
`if (freqRaw[k] > freqRaw[maxIdx]) maxIdx = k`. -/
def scanStep (t : Tab4) (k m : Nat) : Nat :=
  if t.get k > t.get m then k else m

/-- The full scan of `rans.cpp` lines 97-102 (`k = 1, 2, 3` starting from
`maxIdx = 0`): the smallest index of a maximal entry. -/
def maxIdx (t : Tab4) : Nat :=
  scanStep t 3 (scanStep t 2 (scanStep t 1 0))

/-- The greedy correction loop of `rans.cpp` lines 95-109: repeatedly
decrement the currently-largest frequency (never below 1) until `diff`
decrements have been applied or every entry is `≤ 1` (the `break`).
The fuel is exactly the loop variable `diff`. -/
def decMaxLoop : Nat → Tab4 → Tab4
  | 0, t => t
  | d + 1, t =>
    let m := maxIdx t
    if t.get m > 1 then decMaxLoop d (t.dec m) else t

/-- `counts[k]` of `rans.cpp`: occurrences of symbol `k`, accumulated in a
`uint32_t` (hence the reduction). -/
def cntSym (symbols : List Int) (k : Int) : Nat :=
  symbols.count k % W32

/-- The 16-bit clamp-and-cast of `rans.cpp` lines 112-116:
`if (freqRaw[k] == 0) freqRaw[k] = 1; freq[k] = uint16(freqRaw[k])`. -/
def clamp16 (v : Nat) : Nat :=
  (if v = 0 then 1 else v) % 2 ^ 16

/-- One entry of `rans.cpp` lines 77-87: a raw count of `c` out of `sumC`
scaled to `TOTFREQ`, with zero and zero-rounded counts forced to 1.  The
product `c * TOTFREQ` is formed in `uint64_t` (no overflow: it is `< 2 ^ 44`);
the final reduction is the `uint32_t` store of `freqRaw[k]`. -/
def scaledFreq (c sumC : Nat) : Nat :=
  if c = 0 then 1
  else (if c * TOTFREQ / sumC = 0 then 1 else c * TOTFREQ / sumC) % W32

/-- The scaled frequency table `freqRaw` of `rans.cpp` lines 76-87. -/
def ransRawFreqs (symbols : List Int) : Tab4 :=
  let sumCounts := (cntSym symbols 0 + cntSym symbols 1 +
    cntSym symbols 2 + cntSym symbols 3) % W32
  ⟨scaledFreq (cntSym symbols 0) sumCounts, scaledFreq (cntSym symbols 1) sumCounts,
    scaledFreq (cntSym symbols 2) sumCounts, scaledFreq (cntSym symbols 3) sumCounts⟩

/-- The sum correction of `rans.cpp` lines 89-110: a shortfall is added to
symbol 0's frequency (a `uint32_t` add), an excess is removed by the greedy
decrement loop. -/
def ransAdjust (t : Tab4) : Tab4 :=
  let sumFreq := (t.f0 + t.f1 + t.f2 + t.f3) % W32
  if sumFreq < TOTFREQ then { t with f0 := (t.f0 + (TOTFREQ - sumFreq)) % W32 }
  else decMaxLoop (sumFreq - TOTFREQ) t

/-- The normalized frequency table written into the rANS stream header:
steps 1-2 of `ransEncode` (`rans.cpp` lines 61-116): scaling, sum correction,
and the final clamp-and-cast to `uint16_t`. -/
def ransNormFreqs (symbols : List Int) : Tab4 :=
  let t := ransAdjust (ransRawFreqs symbols)
  ⟨clamp16 t.f0, clamp16 t.f1, clamp16 t.f2, clamp16 t.f3⟩

/-- The cumulative table of `rans.cpp` lines 118-123 (and 185-189):
`cum[0] = 0`, `cum[k] = uint16(cum[k-1] + freq[k-1])`. -/
def ransCumTab (f : Tab4) : Tab4 :=
  let c1 := (0 + f.f0) % 2 ^ 16
  let c2 := (c1 + f.f1) % 2 ^ 16
  let c3 := (c2 + f.f2) % 2 ^ 16
  ⟨0, c1, c2, c3⟩

/-- The encoder renormalization loop of `rans.cpp` lines 143-147:
`while (x >= (RANS_L >> 8) * f) { emit x & 0xFF; x >>= 8 }`, returning the
final state and the emitted bytes in emission order.  The fuel bounds the
iteration count; every call passes fuel 4 with `x < 2 ^ 32` and `1 ≤ f`, for
which at most 3 iterations are possible (each divides `x` by 256 and the
guard needs `x ≥ 2 ^ 15`), so the bounded recursion equals the source loop. -/
def ransRenormGo : Nat → Nat → Nat → Nat × List Nat
  | 0, _, x => (x, [])
  | fuel + 1, f, x =>
    if 2 ^ 15 * f ≤ x then
      let p := ransRenormGo fuel f (x / 256)
      (p.1, x % 256 :: p.2)
    else (x, [])

/-- The per-symbol state transform of `rans.cpp` lines 138-152 (state
component): renormalize, then `x = (x / f) * TOTFREQ + (x % f) + c` in
`uint32_t` arithmetic. -/
def ransStepX (f c : Nat) (x : Nat) : Nat :=
  let x1 := (ransRenormGo 4 f x).1
  (x1 / f * TOTFREQ + x1 % f + c) % W32

/-- The encoder main loop of `rans.cpp` lines 138-152 over the (already
reversed) symbol list: returns the final state and all renormalization bytes
in emission order.  A zero frequency would make the source's renormalization
loop spin forever; that unreachable situation is modelled as an error. -/
def ransBody (fq cm : Tab4) : List Int → Nat → Except String (Nat × List Nat)
  | [], x => .ok (x, [])
  | s :: rest, x =>
    let f := fq.get s.toNat
    let c := cm.get s.toNat
    if f = 0 then .error "ransEncode: renormalization loop does not terminate"
    else
      (ransBody fq cm rest (ransStepX f c x)).map
        (fun p => (p.1, (ransRenormGo 4 f x).2 ++ p.2))

/-- The final flush of `rans.cpp` lines 154-158: four bytes of the final
state, least-significant byte first. -/
def ransFlush (x : Nat) : List Nat :=
  [x % 256, x / 2 ^ 8 % 256, x / 2 ^ 16 % 256, x / 2 ^ 24 % 256]

/-- The symbols actually processed by the encoder core: `rans.cpp` line 138
runs `for (int i = int(N) - 1; i >= 0; --i)` with `N = uint32(size())`, so it
walks the first `N % 2 ^ 32` symbols in reverse, and walks nothing when the
`int` cast of `N` is negative (two's complement, `N ≥ 2 ^ 31`). -/
def ransProcList (symbols : List Int) : List Int :=
  let n := symbols.length % W32
  (symbols.take (if n < 2 ^ 31 then n else 0)).reverse

/-- `ransEncode` of `rans.cpp` lines 57-161. -/
def ransEncode (symbols : List Int) : Except String (List Nat) :=
  if symbols.length % W32 = 0 then .ok []
  else if symbols.any (fun s => s < 0 ∨ 4 ≤ s) then
    .error "ransEncode: symbol out of range (0..3)"
  else
    let sumCounts := (cntSym symbols 0 + cntSym symbols 1 +
      cntSym symbols 2 + cntSym symbols 3) % W32
    if sumCounts = 0 then .error "ransEncode: empty histogram"
    else
      let fq := ransNormFreqs symbols
      let cm := ransCumTab fq
      let header := writeU32LE (symbols.length % W32) ++
        writeU16LE fq.f0 ++ writeU16LE fq.f1 ++ writeU16LE fq.f2 ++ writeU16LE fq.f3
      (ransBody fq cm (ransProcList symbols) RANS_L).map
        (fun p => header ++ p.2 ++ ransFlush p.1)

/-- The linear symbol scan of `rans.cpp` lines 214-223: the first `k` with
`cum[k] <= x_mod < cum[k] + freq[k]`, defaulting to 0 (the initial `int s = 0`). -/
def ransFindSym (cm fq : Tab4) (m : Nat) : Nat :=
  if cm.f0 ≤ m ∧ m < cm.f0 + fq.f0 then 0
  else if cm.f1 ≤ m ∧ m < cm.f1 + fq.f1 then 1
  else if cm.f2 ≤ m ∧ m < cm.f2 + fq.f2 then 2
  else if cm.f3 ≤ m ∧ m < cm.f3 + fq.f3 then 3
  else 0

/-- The decoder renormalization loop of `rans.cpp` lines 232-235:
`while (x < RANS_L && idx > dataStart) x = (x << 8) | stream[--idx]`.
Structural recursion on `idx` (which strictly decreases); returns the new
state and the new `idx`. -/
def ransDecRenorm (stream : List Nat) (dataStart : Nat) : Nat → Nat → Nat × Nat
  | 0, x => (0, x)
  | idx + 1, x =>
    if x < RANS_L ∧ dataStart < idx + 1 then
      ransDecRenorm stream dataStart idx (shl32 x 8 + stream.getD idx 0)
    else (idx + 1, x)

/-- The decoder main loop of `rans.cpp` lines 209-236, iterated `N` times
(`i = N-1 .. 0`); each decoded symbol is written at descending index `i`, so
the symbol decoded first ends up last: the accumulator is built by prepending. -/
def ransDecLoop (stream : List Nat) (fq cm : Tab4) (dataStart : Nat) :
    Nat → Nat → Nat → List Int → List Int
  | 0, _, _, acc => acc
  | n + 1, x, idx, acc =>
    let xMod := x % TOTFREQ
    let xDiv := x / TOTFREQ
    let s := ransFindSym cm fq xMod
    let x1 := (fq.get s * xDiv + (xMod - cm.get s)) % W32
    let p := ransDecRenorm stream dataStart idx x1
    ransDecLoop stream fq cm dataStart n p.2 p.1 ((s : Int) :: acc)

/-- `ransDecode` of `rans.cpp` lines 167-239.  With `size ≥ 12` none of the
header reads can throw, so they are embedded as pure field reads; the final
state is rebuilt from the last four bytes exactly as the source does
(`x |= stream[--idx] << 8*i` for `i = 0..3`). -/
def ransDecode (stream : List Nat) : Except String (List Int) :=
  if stream.length < 12 then .error "ransDecode: stream too short"
  else
    let f0 := readU16LEat stream 4
    let f1 := readU16LEat stream 6
    let f2 := readU16LEat stream 8
    let f3 := readU16LEat stream 10
    if f0 = 0 ∨ f1 = 0 ∨ f2 = 0 ∨ f3 = 0 then
      .error "ransDecode: zero freq in header"
    else
      let fq : Tab4 := ⟨f0, f1, f2, f3⟩
      let cm := ransCumTab fq
      if cm.f3 + fq.f3 ≠ TOTFREQ then .error "ransDecode: totalFreq != TOTFREQ"
      else if stream.length < 4 then
        .error "ransDecode: not enough bytes for final state"
      else
        let n := stream.length
        let x := stream.getD (n - 1) 0 + stream.getD (n - 2) 0 * 2 ^ 8 +
          stream.getD (n - 3) 0 * 2 ^ 16 + stream.getD (n - 4) 0 * 2 ^ 24
        .ok (ransDecLoop stream fq cm 12 (readU32LEat stream 0) x (n - 4) [])

example : ransEncode [(1 : Int)] =
    .ok [1, 0, 0, 0, 1, 0, 253, 15, 1, 0, 1, 0, 4, 24, 128, 0] := by decide
example : (ransEncode [(1 : Int)]).bind ransDecode = .ok [(0 : Int)] := by decide
example : ransDecode [] = .error "ransDecode: stream too short" := by decide
example : ransEncode ([] : List Int) = .ok [] := by decide

/-- The two binarization codebooks of `cabac.cpp` (`BinarizationType`). -/
inductive BinarizationType where
  | Good
  | Bad
deriving Repr, DecidableEq

/-- `GOOD_TABLE` of `cabac.cpp` lines 28-33: truncated unary, short codes for
frequent symbols. -/
def GOOD_TABLE : List (List Int) :=
  [[0], [1, 0], [1, 1, 0], [1, 1, 1, 0]]

/-- `BAD_TABLE` of `cabac.cpp` lines 35-40: the reversed assignment. -/
def BAD_TABLE : List (List Int) :=
  [[1, 1, 1, 0], [1, 1, 0], [1, 0], [0]]

/-- `binarizeSymbol` of `cabac.cpp` lines 42-52. -/
def binarizeSymbol (symbol : Int) (t : BinarizationType) : Except String (List Int) :=
  if symbol < 0 ∨ 3 < symbol then .error "symbol out of range (0..3)"
  else if t = .Good then .ok (GOOD_TABLE.getD symbol.toNat [])
  else .ok (BAD_TABLE.getD symbol.toNat [])

/-- `binarizeSequence` of `cabac.cpp` lines 54-65: concatenation of
`binarizeSymbol` over the input in order (the source throws at the first
out-of-range symbol, as the `do` block does here). -/
def binarizeSequence (symbols : List Int) (t : BinarizationType) :
    Except String (List Int) :=
  match symbols with
  | [] => .ok []
  | s :: rest => do
    let b ← binarizeSymbol s t
    let bs ← binarizeSequence rest t
    pure (b ++ bs)

/-- The encoder renormalization loop of `cabac.cpp` lines 136-142:
`while (range < 2^24) { emit low >> 24; low <<= 8; range <<= 8 }`, returning
the new `low`, `range` and the emitted bytes.  Every call passes fuel 3 with
`1 ≤ range`: each iteration multiplies `range` by 256 ( without 32-bit
overflow, since `range < 2 ^ 24`), so after at most 3 iterations
`range ≥ 2 ^ 24` and the source loop has exited. -/
def arithEncRenormGo : Nat → Nat → Nat → Nat × Nat × List Nat
  | 0, low, range => (low, range, [])
  | fuel + 1, low, range =>
    if range < 2 ^ 24 then
      let p := arithEncRenormGo fuel (shl32 low 8) (shl32 range 8)
      (p.1, p.2.1, low / 2 ^ 24 :: p.2.2)
    else (low, range, [])

/-- The encoder bit loop of `cabac.cpp` lines 145-159.  `range / total` with
`total = 0` (possible only after 32-bit wrap-around of `count0 + count1`) is
undefined behaviour in the source and is modelled as an error, as is
`range = 0` entering the renormalization loop, which would spin forever. -/
def arithEncLoop (total count0 : Nat) :
    List Int → Nat → Nat → Except String (Nat × List Nat)
  | [], low, _ => .ok (low, [])
  | b :: rest, low, range =>
    if total = 0 then .error "arithEncodeBits: division by zero"
    else
      let split := (range / total * count0) % W32
      let low1 := if b = 0 then low else add32 low split
      let range1 := if b = 0 then split else sub32 range split
      if range1 = 0 then
        .error "arithEncodeBits: renormalization loop does not terminate"
      else
        let p := arithEncRenormGo 3 low1 range1
        (arithEncLoop total count0 rest p.1 p.2.1).map
          (fun q => (q.1, p.2.2 ++ q.2))

/-- The final flush of `cabac.cpp` lines 162-165: four times
`emit low >> 24; low <<= 8` (most-significant byte first). -/
def arithFlush (low : Nat) : List Nat :=
  [low / 2 ^ 24, shl32 low 8 / 2 ^ 24, shl32 low 16 / 2 ^ 24, shl32 low 24 / 2 ^ 24]

/-- `arithEncodeBits` of `cabac.cpp` lines 108-168.  Counts accumulate in
`uint32_t`; each count is clamped up to 1; any nonzero bit value counts (and
encodes) as a 1. -/
def arithEncodeBits (bits : List Int) : Except String (List Nat) :=
  let numBits := bits.length % W32
  let zc := bits.countP (fun b => b = 0) % W32
  let nzc := bits.countP (fun b => ¬ b = 0) % W32
  let count0 := if zc = 0 then 1 else zc
  let count1 := if nzc = 0 then 1 else nzc
  let total := (count0 + count1) % W32
  let header := writeU32LE numBits ++ writeU32LE count0 ++ writeU32LE count1
  (arithEncLoop total count0 bits 0 (2 ^ 32 - 1)).map
    (fun p => header ++ p.2 ++ arithFlush p.1)

/-- The decoder renormalization loop of `cabac.cpp` lines 199-209: shifts
`low`, `range` and `code` left one byte, pulling the next payload byte (or 0
once the payload is exhausted) into `code`.  Fuel as in `arithEncRenormGo`. -/
def arithDecRenormGo (stream : List Nat) :
    Nat → Nat → Nat → Nat → Nat → Nat × Nat × Nat × Nat
  | 0, low, range, code, offset => (low, range, code, offset)
  | fuel + 1, low, range, code, offset =>
    if range < 2 ^ 24 then
      let nextByte := if offset < stream.length then stream.getD offset 0 else 0
      let offset1 := if offset < stream.length then offset + 1 else offset
      arithDecRenormGo stream fuel (shl32 low 8) (shl32 range 8)
        (shl32 code 8 + nextByte) offset1
    else (low, range, code, offset)

/-- The decoder bit loop of `cabac.cpp` lines 214-233, run exactly `numBits`
times; the bit decided each iteration is prepended to the front of the
remaining output (`bits.push_back`).  The same two unreachable-in-the-source
situations as in `arithEncLoop` are modelled as errors. -/
def arithDecLoop (stream : List Nat) (total count0 : Nat) :
    Nat → Nat → Nat → Nat → Nat → Except String (List Int)
  | 0, _, _, _, _ => .ok []
  | n + 1, low, range, code, offset =>
    if total = 0 then .error "arithDecodeBits: division by zero"
    else
      let split := (range / total * count0) % W32
      let rel := sub32 code low
      let bit : Int := if rel < split then 0 else 1
      let low1 := if rel < split then low else add32 low split
      let range1 := if rel < split then split else sub32 range split
      if range1 = 0 then
        .error "arithDecodeBits: renormalization loop does not terminate"
      else
        let p := arithDecRenormGo stream 3 low1 range1 code offset
        (arithDecLoop stream total count0 n p.1 p.2.1 p.2.2.1 p.2.2.2).map
          (fun bs => bit :: bs)

/-- `arithDecodeBits` of `cabac.cpp` lines 170-236. -/
def arithDecodeBits (stream : List Nat) : Except String (List Int) :=
  if stream.length < 12 then .error "arithDecodeBits: stream too short"
  else
    let numBits := readU32LEat stream 0
    let count0 := readU32LEat stream 4
    let count1 := readU32LEat stream 8
    if count0 = 0 ∨ count1 = 0 then .error "arithDecodeBits: invalid counts"
    else
      let total := (count0 + count1) % W32
      if stream.length < 16 then .error "arithDecodeBits: no data bytes"
      else
        let code := stream.getD 12 0 * 2 ^ 24 + stream.getD 13 0 * 2 ^ 16 +
          stream.getD 14 0 * 2 ^ 8 + stream.getD 15 0
        arithDecLoop stream total count0 numBits 0 (2 ^ 32 - 1) code 16

/-- A list over the 4-symbol alphabet is partitioned by its per-symbol counts. -/
theorem count_partition (s : List Int) (h : ∀ x ∈ s, 0 ≤ x ∧ x < 4) :
    s.count 0 + s.count 1 + s.count 2 + s.count 3 = s.length := by
  induction s with
  | nil => simp
  | cons a l ih =>
    have ha := h a (by simp)
    have hl : ∀ x ∈ l, 0 ≤ x ∧ x < 4 := fun x hx => h x (by simp [hx])
    have := ih hl
    have hcases : a = 0 ∨ a = 1 ∨ a = 2 ∨ a = 3 := by omega
    simp only [List.count_cons, List.length_cons]
    rcases hcases with rfl | rfl | rfl | rfl <;> simp <;> omega

/-- With fewer than `2 ^ 32` symbols the `uint32_t` counters do not wrap. -/
theorem cntSym_eq (s : List Int) (k : Int) (h : s.length < 2 ^ 32) :
    cntSym s k = s.count k := by
  have : s.count k < 2 ^ 32 := lt_of_le_of_lt (List.count_le_length k s) h
  simpa [cntSym, W32] using Nat.mod_eq_of_lt this

/-- Each scan iteration keeps or improves the running maximum. -/
theorem scanStep_ge (t : Tab4) (k m : Nat) :
    t.get m ≤ t.get (scanStep t k m) ∧ t.get k ≤ t.get (scanStep t k m) := by
  unfold scanStep
  split <;> omega

/-- Each scan iteration returns either the candidate or the running index. -/
theorem scanStep_mem (t : Tab4) (k m : Nat) :
    scanStep t k m = k ∨ scanStep t k m = m := by
  unfold scanStep
  split <;> simp

/-- The scan of `maxIdx` lands on one of the four indices. -/
theorem maxIdx_cases (t : Tab4) :
    maxIdx t = 0 ∨ maxIdx t = 1 ∨ maxIdx t = 2 ∨ maxIdx t = 3 := by
  unfold maxIdx
  rcases scanStep_mem t 3 (scanStep t 2 (scanStep t 1 0)) with h3 | h3 <;>
    rw [h3]
  · simp
  rcases scanStep_mem t 2 (scanStep t 1 0) with h2 | h2 <;> rw [h2]
  · simp
  rcases scanStep_mem t 1 0 with h1 | h1 <;> rw [h1] <;> simp

/-- The entry selected by `maxIdx` dominates every entry. -/
theorem maxIdx_ge (t : Tab4) :
    t.f0 ≤ t.get (maxIdx t) ∧ t.f1 ≤ t.get (maxIdx t) ∧
      t.f2 ≤ t.get (maxIdx t) ∧ t.f3 ≤ t.get (maxIdx t) := by
  have h1 := scanStep_ge t 1 0
  have h2 := scanStep_ge t 2 (scanStep t 1 0)
  have h3 := scanStep_ge t 3 (scanStep t 2 (scanStep t 1 0))
  have e0 : t.get 0 = t.f0 := rfl
  have e1 : t.get 1 = t.f1 := rfl
  have e2 : t.get 2 = t.f2 := rfl
  have e3 : t.get 3 = t.f3 := rfl
  unfold maxIdx
  rw [e0] at h1
  rw [e1] at h1
  rw [e2] at h2
  rw [e3] at h3
  omega

/-- The greedy decrement loop, run with fuel equal to the excess over
`TOTFREQ`, restores the exact total while keeping every entry positive. -/
theorem decMaxLoop_invariant (d : Nat) :
    ∀ t : Tab4, 1 ≤ t.f0 → 1 ≤ t.f1 → 1 ≤ t.f2 → 1 ≤ t.f3 →
      t.f0 + t.f1 + t.f2 + t.f3 = 4096 + d →
      (1 ≤ (decMaxLoop d t).f0 ∧ 1 ≤ (decMaxLoop d t).f1 ∧
        1 ≤ (decMaxLoop d t).f2 ∧ 1 ≤ (decMaxLoop d t).f3) ∧
      (decMaxLoop d t).f0 + (decMaxLoop d t).f1 + (decMaxLoop d t).f2 +
        (decMaxLoop d t).f3 = 4096 := by
  induction d with
  | zero =>
    intro t h0 h1 h2 h3 hsum
    simpa [decMaxLoop] using ⟨⟨h0, h1, h2, h3⟩, hsum⟩
  | succ d ih =>
    intro t h0 h1 h2 h3 hsum
    have hge := maxIdx_ge t
    have hmax : 1 < t.get (maxIdx t) := by
      by_contra hle
      push_neg at hle
      have := hge.1
      have := hge.2.1
      have := hge.2.2.1
      have := hge.2.2.2
      omega
    have hloop : decMaxLoop (d + 1) t = decMaxLoop d (t.dec (maxIdx t)) := by
      simp [decMaxLoop, hmax]
    rw [hloop]
    rcases maxIdx_cases t with hm | hm | hm | hm <;> rw [hm] at hmax ⊢
    · have hx : 1 < t.f0 := hmax
      exact ih (t.dec 0) (show 1 ≤ t.f0 - 1 by omega) h1 h2 h3
        (show t.f0 - 1 + t.f1 + t.f2 + t.f3 = 4096 + d by omega)
    · have hx : 1 < t.f1 := hmax
      exact ih (t.dec 1) h0 (show 1 ≤ t.f1 - 1 by omega) h2 h3
        (show t.f0 + (t.f1 - 1) + t.f2 + t.f3 = 4096 + d by omega)
    · have hx : 1 < t.f2 := hmax
      exact ih (t.dec 2) h0 h1 (show 1 ≤ t.f2 - 1 by omega) h3
        (show t.f0 + t.f1 + (t.f2 - 1) + t.f3 = 4096 + d by omega)
    · have hx : 1 < t.f3 := hmax
      exact ih (t.dec 3) h0 h1 h2 (show 1 ≤ t.f3 - 1 by omega)
        (show t.f0 + t.f1 + t.f2 + (t.f3 - 1) = 4096 + d by omega)

/-- A scaled frequency entry of an in-range count is between 1 and `TOTFREQ`. -/
theorem scaledFreq_bounds (c n : Nat) (hc : c ≤ n) (hn : 0 < n) :
    1 ≤ scaledFreq c n ∧ scaledFreq c n ≤ 4096 := by
  by_cases hz : c = 0
  · simp [scaledFreq, hz]
  · have hs : c * TOTFREQ / n ≤ 4096 := by
      calc c * TOTFREQ / n ≤ n * TOTFREQ / n :=
            Nat.div_le_div_right (Nat.mul_le_mul_right _ hc)
        _ = TOTFREQ := by rw [Nat.mul_comm, Nat.mul_div_cancel _ hn]
        _ = 4096 := rfl
    by_cases hz2 : c * TOTFREQ / n = 0
    · simp [scaledFreq, hz, hz2, W32]
    · have hpos : 1 ≤ c * TOTFREQ / n := Nat.one_le_iff_ne_zero.mpr hz2
      have hw : c * TOTFREQ / n < W32 := lt_of_le_of_lt hs (by norm_num [W32])
      simp only [scaledFreq, hz, if_false, hz2]
      rw [Nat.mod_eq_of_lt hw]
      exact ⟨hpos, hs⟩

/-- The `uint32_t` sum of the four counts equals the length when the input is
in range and shorter than `2 ^ 32` symbols. -/
theorem cntSum_eq (s : List Int) (h1 : s.length < 2 ^ 32)
    (h2 : ∀ x ∈ s, 0 ≤ x ∧ x < 4) :
    (cntSym s 0 + cntSym s 1 + cntSym s 2 + cntSym s 3) % W32 = s.length := by
  rw [cntSym_eq s 0 h1, cntSym_eq s 1 h1, cntSym_eq s 2 h1, cntSym_eq s 3 h1,
    count_partition s h2]
  exact Nat.mod_eq_of_lt h1

/-- Every entry of the raw scaled table is between 1 and 4096. -/
theorem ransRawFreqs_bounds (s : List Int) (h0 : s ≠ [])
    (h1 : s.length < 2 ^ 32) (h2 : ∀ x ∈ s, 0 ≤ x ∧ x < 4) :
    (1 ≤ (ransRawFreqs s).f0 ∧ (ransRawFreqs s).f0 ≤ 4096) ∧
    (1 ≤ (ransRawFreqs s).f1 ∧ (ransRawFreqs s).f1 ≤ 4096) ∧
    (1 ≤ (ransRawFreqs s).f2 ∧ (ransRawFreqs s).f2 ≤ 4096) ∧
    (1 ≤ (ransRawFreqs s).f3 ∧ (ransRawFreqs s).f3 ≤ 4096) := by
  have hlen : 0 < s.length := List.length_pos.mpr h0
  have hsumc := cntSum_eq s h1 h2
  have hb : ∀ k : Int, 1 ≤ scaledFreq (cntSym s k) s.length ∧
      scaledFreq (cntSym s k) s.length ≤ 4096 := by
    intro k
    apply scaledFreq_bounds
    · rw [cntSym_eq s k h1]
      exact List.count_le_length k s
    · exact hlen
  simp only [ransRawFreqs, hsumc]
  exact ⟨hb 0, hb 1, hb 2, hb 3⟩

/-- The sum correction produces positive entries summing to exactly 4096. -/
theorem ransAdjust_props (t : Tab4)
    (h0 : 1 ≤ t.f0 ∧ t.f0 ≤ 4096) (h1 : 1 ≤ t.f1 ∧ t.f1 ≤ 4096)
    (h2 : 1 ≤ t.f2 ∧ t.f2 ≤ 4096) (h3 : 1 ≤ t.f3 ∧ t.f3 ≤ 4096) :
    (1 ≤ (ransAdjust t).f0 ∧ 1 ≤ (ransAdjust t).f1 ∧
      1 ≤ (ransAdjust t).f2 ∧ 1 ≤ (ransAdjust t).f3) ∧
    (ransAdjust t).f0 + (ransAdjust t).f1 + (ransAdjust t).f2 +
      (ransAdjust t).f3 = 4096 := by
  have hmod : (t.f0 + t.f1 + t.f2 + t.f3) % W32 = t.f0 + t.f1 + t.f2 + t.f3 :=
    Nat.mod_eq_of_lt (by simp only [W32]; omega)
  simp only [ransAdjust, hmod]
  by_cases hlt : t.f0 + t.f1 + t.f2 + t.f3 < TOTFREQ
  · simp only [hlt, if_true]
    have hlt4 : t.f0 + t.f1 + t.f2 + t.f3 < 4096 := hlt
    rw [Nat.mod_eq_of_lt (show t.f0 + (TOTFREQ - (t.f0 + t.f1 + t.f2 + t.f3)) < W32 by
      simp only [TOTFREQ, W32]; omega)]
    simp only [TOTFREQ]
    refine ⟨⟨by omega, by omega, by omega, by omega⟩, by omega⟩
  · simp only [hlt, if_false]
    exact decMaxLoop_invariant _ t h0.1 h1.1 h2.1 h3.1
      (by simp only [TOTFREQ] at hlt ⊢; omega)

/-- The 16-bit clamp-and-cast is the identity on `[1, 4095]`. -/
theorem clamp16_id (v : Nat) (hv1 : 1 ≤ v) (hv2 : v ≤ 4095) : clamp16 v = v := by
  simp only [clamp16]
  rw [if_neg (by omega)]
  exact Nat.mod_eq_of_lt (by omega)

/-- The normalized frequency table of a nonempty in-range input of realistic
size (the header's symbol-count field is 32 bits wide): every entry is at
least 1 and the four entries sum to exactly `TOTFREQ = 4096`. -/
theorem ransNormFreqs_bounds (s : List Int) (h0 : s ≠ [])
    (h1 : s.length < 2 ^ 32) (h2 : ∀ x ∈ s, 0 ≤ x ∧ x < 4) :
    (1 ≤ (ransNormFreqs s).f0 ∧ 1 ≤ (ransNormFreqs s).f1 ∧
      1 ≤ (ransNormFreqs s).f2 ∧ 1 ≤ (ransNormFreqs s).f3) ∧
    (ransNormFreqs s).f0 + (ransNormFreqs s).f1 + (ransNormFreqs s).f2 +
      (ransNormFreqs s).f3 = 4096 := by
  obtain ⟨hr0, hr1, hr2, hr3⟩ := ransRawFreqs_bounds s h0 h1 h2
  obtain ⟨⟨p0, p1, p2, p3⟩, psum⟩ := ransAdjust_props _ hr0 hr1 hr2 hr3
  simp only [ransNormFreqs]
  rw [clamp16_id _ p0 (by omega), clamp16_id _ p1 (by omega),
    clamp16_id _ p2 (by omega), clamp16_id _ p3 (by omega)]
  exact ⟨⟨p0, p1, p2, p3⟩, psum⟩

/-- Indexing a table all of whose entries are positive yields a positive
value (the source only indexes with `k < 4`, but the bound is not needed). -/
theorem tab4_get_pos (t : Tab4) (h0 : 1 ≤ t.f0) (h1 : 1 ≤ t.f1)
    (h2 : 1 ≤ t.f2) (h3 : 1 ≤ t.f3) : ∀ k, 1 ≤ t.get k := by
  intro k
  unfold Tab4.get
  split_ifs <;> assumption

/-- The encoder core never reaches its nontermination guard when every
frequency is positive. -/
theorem ransBody_ok (fq cm : Tab4) (hpos : ∀ k, 1 ≤ fq.get k) :
    ∀ (l : List Int) (x : Nat), ∃ x' e, ransBody fq cm l x = .ok (x', e) := by
  intro l
  induction l with
  | nil => intro x; exact ⟨x, [], rfl⟩
  | cons v rest ih =>
    intro x
    obtain ⟨x', e, hrec⟩ := ih (ransStepX (fq.get v.toNat) (cm.get v.toNat) x)
    refine ⟨x', (ransRenormGo 4 (fq.get v.toNat) x).2 ++ e, ?_⟩
    have hf : ¬ fq.get v.toNat = 0 := by
      have := hpos v.toNat
      omega
    simp [ransBody, hf, hrec, Except.map]

/-- C3: for every nonempty in-range symbol sequence (of a length the 32-bit
header field can hold), the four frequencies computed during header
construction are each at least 1 and sum to exactly 4096, the encoder
succeeds, and those four values are exactly what the header stores after the
symbol count. -/
theorem rans_freq_invariant (s : List Int) (h0 : s ≠ [])
    (h1 : s.length < 2 ^ 32) (h2 : ∀ x ∈ s, 0 ≤ x ∧ x < 4) :
    (1 ≤ (ransNormFreqs s).f0 ∧ 1 ≤ (ransNormFreqs s).f1 ∧
      1 ≤ (ransNormFreqs s).f2 ∧ 1 ≤ (ransNormFreqs s).f3) ∧
    (ransNormFreqs s).f0 + (ransNormFreqs s).f1 + (ransNormFreqs s).f2 +
      (ransNormFreqs s).f3 = 4096 ∧
    ∃ rest, ransEncode s =
      .ok (writeU32LE (s.length % W32) ++ writeU16LE (ransNormFreqs s).f0 ++
        writeU16LE (ransNormFreqs s).f1 ++ writeU16LE (ransNormFreqs s).f2 ++
        writeU16LE (ransNormFreqs s).f3 ++ rest) := by
  obtain ⟨hposs, hsum⟩ := ransNormFreqs_bounds s h0 h1 h2
  refine ⟨hposs, hsum, ?_⟩
  have hlen0 : 0 < s.length := List.length_pos.mpr h0
  have hmod : s.length % W32 = s.length := by
    simpa [W32] using Nat.mod_eq_of_lt h1
  have hne : s.length ≠ 0 := by omega
  have hany : (s.any fun v => decide (v < 0 ∨ 4 ≤ v)) = false := by
    simp only [List.any_eq_false, decide_eq_true_eq]
    intro v hv
    have := h2 v hv
    omega
  obtain ⟨x', e, hbody⟩ := ransBody_ok (ransNormFreqs s)
    (ransCumTab (ransNormFreqs s))
    (tab4_get_pos _ hposs.1 hposs.2.1 hposs.2.2.1 hposs.2.2.2)
    (ransProcList s) RANS_L
  refine ⟨e ++ ransFlush x', ?_⟩
  simp only [ransEncode, hmod, hany, cntSum_eq s h1 h2, hne,
    Bool.false_eq_true, if_false, hbody, Except.map, List.append_assoc]

/-- The trace of the encoder state `x`: its initial value `RANS_L` followed by
its value after each per-symbol step (renormalization followed by the
transform), over the symbols the encoder core processes, in processing
order.  `ransStepX` is exactly the state component of `ransBody`. -/
def ransStatesOf (symbols : List Int) : List Nat :=
  let fq := ransNormFreqs symbols
  let cm := ransCumTab fq
  List.scanl (fun x s => ransStepX (fq.get s.toNat) (cm.get s.toNat) x)
    RANS_L (ransProcList symbols)

/-- Witness for C3 at the concrete input `[0, 1, 2, 3]`. -/
theorem rans_freq_invariant_witness :
    (([0, 1, 2, 3] : List Int) ≠ [] ∧ ([0, 1, 2, 3] : List Int).length < 2 ^ 32 ∧
      (∀ x ∈ ([0, 1, 2, 3] : List Int), 0 ≤ x ∧ x < 4)) ∧
    ((1 ≤ (ransNormFreqs [0, 1, 2, 3]).f0 ∧ 1 ≤ (ransNormFreqs [0, 1, 2, 3]).f1 ∧
      1 ≤ (ransNormFreqs [0, 1, 2, 3]).f2 ∧ 1 ≤ (ransNormFreqs [0, 1, 2, 3]).f3) ∧
    (ransNormFreqs [0, 1, 2, 3]).f0 + (ransNormFreqs [0, 1, 2, 3]).f1 +
      (ransNormFreqs [0, 1, 2, 3]).f2 + (ransNormFreqs [0, 1, 2, 3]).f3 = 4096 ∧
    ∃ rest, ransEncode [0, 1, 2, 3] =
      .ok (writeU32LE (([0, 1, 2, 3] : List Int).length % W32) ++
        writeU16LE (ransNormFreqs [0, 1, 2, 3]).f0 ++
        writeU16LE (ransNormFreqs [0, 1, 2, 3]).f1 ++
        writeU16LE (ransNormFreqs [0, 1, 2, 3]).f2 ++
        writeU16LE (ransNormFreqs [0, 1, 2, 3]).f3 ++ rest)) :=
  ⟨⟨by decide, by decide, by decide⟩,
    rans_freq_invariant [0, 1, 2, 3] (by decide) (by decide) (by decide)⟩

/-- The encoder renormalization loop exits below its threshold whenever the
fuel dominates the possible iteration count. -/
theorem ransRenormGo_lt (fuel f x : Nat) (_hf : 1 ≤ f)
    (hx : x < 2 ^ 15 * f * 256 ^ fuel) :
    (ransRenormGo fuel f x).1 < 2 ^ 15 * f := by
  induction fuel generalizing x with
  | zero => simpa [ransRenormGo] using hx
  | succ n ih =>
    rw [ransRenormGo]
    split
    · apply ih
      have h256 : (0 : Nat) < 256 := by norm_num
      rw [Nat.div_lt_iff_lt_mul h256]
      calc x < 2 ^ 15 * f * 256 ^ (n + 1) := hx
        _ = 2 ^ 15 * f * 256 ^ n * 256 := by ring
    · omega

/-- The encoder renormalization loop never drops the state below
`2 ^ 7 * f` unless it was already below. -/
theorem ransRenormGo_ge (fuel f x : Nat) :
    min x (2 ^ 7 * f) ≤ (ransRenormGo fuel f x).1 := by
  induction fuel generalizing x with
  | zero => simp [ransRenormGo]
  | succ n ih =>
    rw [ransRenormGo]
    split
    · rename_i hcond
      have hdiv : 2 ^ 7 * f ≤ x / 256 := by
        rw [Nat.le_div_iff_mul_le (by norm_num : (0 : Nat) < 256)]
        calc 2 ^ 7 * f * 256 = 2 ^ 15 * f := by ring
          _ ≤ x := hcond
      have := ih (x / 256)
      simp only [ransRenormGo]
      omega
    · simp

/-- One per-symbol encoder step keeps the state at or above `2 ^ 19` (and
inside 32 bits) for any frequency in `[1, 4096]` and cumulative value below
`2 ^ 16`. -/
theorem ransStepX_inv (f c x : Nat) (hf1 : 1 ≤ f) (hf2 : f ≤ 4096)
    (hc : c < 2 ^ 16) (hx1 : 2 ^ 19 ≤ x) (hx2 : x < 2 ^ 32) :
    2 ^ 19 ≤ ransStepX f c x ∧ ransStepX f c x < 2 ^ 32 := by
  have hf0 : 0 < f := hf1
  have hxlt : (ransRenormGo 4 f x).1 < 2 ^ 15 * f := by
    apply ransRenormGo_lt 4 f x hf1
    have hb : 2 ^ 15 * 1 * 256 ^ 4 ≤ 2 ^ 15 * f * 256 ^ 4 :=
      Nat.mul_le_mul_right _ (Nat.mul_le_mul_left _ hf1)
    have hx3 : x < 2 ^ 15 * 1 * 256 ^ 4 := lt_of_lt_of_le hx2 (by norm_num)
    omega
  have hxge : 2 ^ 7 * f ≤ (ransRenormGo 4 f x).1 := by
    have hmin := ransRenormGo_ge 4 f x
    have hub : 2 ^ 7 * f ≤ 2 ^ 7 * 4096 := Nat.mul_le_mul_left _ hf2
    have h19 : (2 : Nat) ^ 7 * 4096 = 2 ^ 19 := by norm_num
    omega
  set x1 := (ransRenormGo 4 f x).1 with hx1def
  have hdivge : 2 ^ 7 ≤ x1 / f := (Nat.le_div_iff_mul_le hf0).mpr hxge
  have hdivlt : x1 / f < 2 ^ 15 := (Nat.div_lt_iff_lt_mul hf0).mpr hxlt
  have hmodlt : x1 % f < f := Nat.mod_lt _ hf0
  have hraw : x1 / f * TOTFREQ + x1 % f + c < 2 ^ 32 := by
    have hq : x1 / f * TOTFREQ ≤ 32767 * TOTFREQ :=
      Nat.mul_le_mul_right _ (by omega)
    simp only [TOTFREQ] at hq ⊢
    omega
  have hraw2 : 2 ^ 19 ≤ x1 / f * TOTFREQ + x1 % f + c := by
    have hq : 2 ^ 7 * TOTFREQ ≤ x1 / f * TOTFREQ :=
      Nat.mul_le_mul_right _ hdivge
    simp only [TOTFREQ] at hq ⊢
    omega
  have hfin : ransStepX f c x = x1 / f * TOTFREQ + x1 % f + c := by
    simp only [ransStepX, ← hx1def]
    rw [show W32 = 2 ^ 32 from rfl]
    exact Nat.mod_eq_of_lt hraw
  rw [hfin]
  exact ⟨hraw2, hraw⟩

/-- Every element of a left scan satisfies an invariant preserved by the
step function and holding at the start. -/
theorem scanl_invariant {α β : Type} (g : α → β → α) (P : α → Prop)
    (hstep : ∀ y a, P y → P (g y a)) :
    ∀ (l : List β) (x : α), P x → ∀ z ∈ List.scanl g x l, P z := by
  intro l
  induction l with
  | nil =>
    intro x hx z hz
    simp only [List.scanl_nil, List.mem_singleton] at hz
    rwa [hz]
  | cons a t ih =>
    intro x hx z hz
    simp only [List.scanl_cons, List.singleton_append, List.mem_cons] at hz
    rcases hz with rfl | hz
    · exact hx
    · exact ih (g x a) (hstep x a hx) z hz

/-- The cumulative table entries are 16-bit values. -/
theorem ransCumTab_lt (f : Tab4) : ∀ k, (ransCumTab f).get k < 2 ^ 16 := by
  intro k
  simp only [ransCumTab, Tab4.get]
  split_ifs <;> omega

/-- Indexing a table all of whose entries are at most 4096 stays at most 4096. -/
theorem tab4_get_le (t : Tab4) (h0 : t.f0 ≤ 4096) (h1 : t.f1 ≤ 4096)
    (h2 : t.f2 ≤ 4096) (h3 : t.f3 ≤ 4096) : ∀ k, t.get k ≤ 4096 := by
  intro k
  unfold Tab4.get
  split_ifs <;> assumption

/-- C4 (amended): the encoder state starts at `RANS_L = 2 ^ 23` and stays at
or above `2 ^ 19` after every per-symbol step, for every nonempty in-range
input whose length the 32-bit count field can hold.  (The claimed bound
`RANS_L` itself holds at initialization but not after every step; see the
counterexample.) -/
theorem rans_state_lower_bound (s : List Int) (h0 : s ≠ [])
    (h1 : s.length < 2 ^ 32) (h2 : ∀ x ∈ s, 0 ≤ x ∧ x < 4) :
    (ransStatesOf s).head? = some RANS_L ∧ ∀ y ∈ ransStatesOf s, 2 ^ 19 ≤ y := by
  obtain ⟨⟨p0, p1, p2, p3⟩, psum⟩ := ransNormFreqs_bounds s h0 h1 h2
  constructor
  · unfold ransStatesOf
    cases ransProcList s <;> simp [List.scanl_nil, List.scanl_cons]
  · intro y hy
    have hinv := scanl_invariant
      (fun x v => ransStepX ((ransNormFreqs s).get v.toNat)
        ((ransCumTab (ransNormFreqs s)).get v.toNat) x)
      (fun x => 2 ^ 19 ≤ x ∧ x < 2 ^ 32)
      (fun x v hx => ransStepX_inv _ _ x
        (tab4_get_pos _ p0 p1 p2 p3 v.toNat)
        (tab4_get_le _ (by omega) (by omega) (by omega) (by omega) v.toNat)
        (ransCumTab_lt _ v.toNat) hx.1 hx.2)
      (ransProcList s) RANS_L ⟨by norm_num [RANS_L], by norm_num [RANS_L]⟩
    exact (hinv y (by simpa [ransStatesOf] using hy)).1

/-- Witness for C4's amended bound at the concrete input `[0, 1, 2]`. -/
theorem rans_state_lower_bound_witness :
    (([0, 1, 2] : List Int) ≠ [] ∧ ([0, 1, 2] : List Int).length < 2 ^ 32 ∧
      (∀ x ∈ ([0, 1, 2] : List Int), 0 ≤ x ∧ x < 4)) ∧
    ((ransStatesOf [0, 1, 2]).head? = some RANS_L ∧
      ∀ y ∈ ransStatesOf [0, 1, 2], 2 ^ 19 ≤ y) :=
  ⟨⟨by decide, by decide, by decide⟩,
    rans_state_lower_bound [0, 1, 2] (by decide) (by decide) (by decide)⟩

/-- C1: the rANS roundtrip fails already on the one-symbol input `[1]`:
the decoder returns `[0]`.  (`ransDecode` rebuilds the final state from the
stream tail with the byte significance reversed relative to the encoder's
LSB-first flush, and writes decoded symbols from index `N-1` downwards.) -/
theorem rans_roundtrip_code_bug :
    (ransEncode [(1 : Int)]).bind ransDecode = .ok [(0 : Int)] ∧
      ([(0 : Int)] ≠ [(1 : Int)]) := by
  constructor
  · decide
  · decide

/-- C2: the arithmetic-coder roundtrip fails on the 12-bit pattern that
`main.cpp`'s own self-test (`testArithmeticCoder`) uses: a carry out of
`low` is never propagated into already-emitted bytes, and the decoder
returns a different bit sequence. -/
theorem arith_roundtrip_code_bug :
    (arithEncodeBits [0, 1, 0, 1, 1, 0, 0, 0, 1, 1, 1, 0]).bind arithDecodeBits =
      .ok [0, 1, 0, 1, 0, 1, 1, 1, 1, 1, 0, 1] ∧
      (([0, 1, 0, 1, 0, 1, 1, 1, 1, 1, 0, 1] : List Int) ≠
        [0, 1, 0, 1, 1, 0, 0, 0, 1, 1, 1, 0]) := by
  constructor
  · decide
  · decide

/-- C4 counterexample: on input `[0, 1, 2]` the encoder state falls to
`884973 < RANS_L = 2 ^ 23` after the third per-symbol step, refuting the
claim that `x ≥ RANS_L` after every step.  (The renormalization threshold
`(RANS_L >> 8) * f = 2 ^ 15 * f` lets `x` drop to about `2 ^ 7 * f` before
the transform, which only brings it back to about `2 ^ 19`.) -/
theorem rans_state_inv_counterexample :
    884973 ∈ ransStatesOf [0, 1, 2] ∧ 884973 < RANS_L := by
  constructor
  · decide
  · decide

/-- C5 counterexample: a 12-byte header whose four nonzero frequencies
`30000, 30000, 7584, 2048` sum to `69632 ≠ 4096` is accepted without any
error, because the 16-bit cumulative table wraps (`69632 = 4096 + 2 ^ 16`)
and the decoder's total comes out as exactly 4096; with symbol count 0 the
decode returns the empty sequence. -/
theorem rans_header_errors_counterexample :
    readU16LEat [0, 0, 0, 0, 48, 117, 48, 117, 160, 29, 0, 8] 4 = 30000 ∧
      readU16LEat [0, 0, 0, 0, 48, 117, 48, 117, 160, 29, 0, 8] 6 = 30000 ∧
      readU16LEat [0, 0, 0, 0, 48, 117, 48, 117, 160, 29, 0, 8] 8 = 7584 ∧
      readU16LEat [0, 0, 0, 0, 48, 117, 48, 117, 160, 29, 0, 8] 10 = 2048 ∧
      30000 + 30000 + 7584 + 2048 ≠ 4096 ∧
      ransDecode [0, 0, 0, 0, 48, 117, 48, 117, 160, 29, 0, 8] = .ok [] := by
  refine ⟨by decide, by decide, by decide, by decide, by decide, by decide⟩

/-- C6 counterexample: decoding the empty byte buffer does not return the
empty symbol sequence; it raises the truncation error (`size < 12`). -/
theorem rans_empty_decode_counterexample :
    ransDecode [] = .error "ransDecode: stream too short" := by decide

/-- C6 (amended): encoding the empty symbol sequence returns the empty byte
buffer, and decoding the empty byte buffer raises the truncation error for
streams shorter than the 12-byte header minimum. -/
theorem rans_empty_boundary :
    ransEncode ([] : List Int) = .ok [] ∧
      ransDecode [] = .error "ransDecode: stream too short" := by
  constructor
  · decide
  · decide

/-- C7: encoding the empty bit list writes exactly 16 bytes: the little-endian
header `numBits = 0`, `count0 = 1`, `count1 = 1` (both counts clamped up from
0 to 1) followed by the four flush bytes of the final `low = 0`, MSB first. -/
theorem arith_encode_empty :
    arithEncodeBits [] = .ok [0, 0, 0, 0, 1, 0, 0, 0, 1, 0, 0, 0, 0, 0, 0, 0] := by
  decide

/-- C8: `binarizeSymbol` on the in-range symbols 0..3 returns exactly the
codebook rows (lengths 1, 2, 3, 4 under the efficient codebook and the
reverse under the inefficient one), and raises the range error on every
symbol outside `[0, 3]` under either codebook. -/
theorem binarize_symbol_spec :
    (binarizeSymbol 0 .Good = .ok [0] ∧ binarizeSymbol 1 .Good = .ok [1, 0] ∧
      binarizeSymbol 2 .Good = .ok [1, 1, 0] ∧
      binarizeSymbol 3 .Good = .ok [1, 1, 1, 0]) ∧
    (binarizeSymbol 0 .Bad = .ok [1, 1, 1, 0] ∧ binarizeSymbol 1 .Bad = .ok [1, 1, 0] ∧
      binarizeSymbol 2 .Bad = .ok [1, 0] ∧ binarizeSymbol 3 .Bad = .ok [0]) ∧
    ∀ (s : Int) (t : BinarizationType), (s < 0 ∨ 3 < s) →
      binarizeSymbol s t = .error "symbol out of range (0..3)" := by
  refine ⟨by decide, by decide, ?_⟩
  intro s t h
  unfold binarizeSymbol
  rw [if_pos h]

/-- Witness for C8's range clause at the concrete out-of-range symbol 4. -/
theorem binarize_symbol_spec_witness :
    (((4 : Int) < 0 ∨ 3 < (4 : Int)) ∧
      binarizeSymbol 4 .Good = .error "symbol out of range (0..3)") :=
  ⟨by decide, binarize_symbol_spec.2.2 4 .Good (by decide)⟩

/-- C10 counterexample: a 16-byte stream whose parsed `count0 = 1` and
`count1 = 2 ^ 32 - 1` are both nonzero makes `count0 + count1` wrap to 0 in
`uint32_t`, so the decoder's very first `range / total` divides by zero
(undefined behaviour in the source, an error in this embedding) instead of
returning a `numBits`-length bit list. -/
theorem arith_decode_total_counterexample :
    readU32LEat [1, 0, 0, 0, 1, 0, 0, 0, 255, 255, 255, 255, 0, 0, 0, 0] 4 = 1 ∧
      readU32LEat [1, 0, 0, 0, 1, 0, 0, 0, 255, 255, 255, 255, 0, 0, 0, 0] 8 =
        2 ^ 32 - 1 ∧
      arithDecodeBits [1, 0, 0, 0, 1, 0, 0, 0, 255, 255, 255, 255, 0, 0, 0, 0] =
        .error "arithDecodeBits: division by zero" := by
  refine ⟨by decide, by decide, by decide⟩

/-- C5 (amended): `ransDecode` raises the truncation error on every stream
shorter than 12 bytes; with at least 12 bytes it raises the corrupt-header
error when any parsed 16-bit frequency is 0; and with four nonzero parsed
frequencies it raises the corrupt-header error exactly when the total it
computes — the 16-bit-wrapped cumulative of the first three frequencies plus
the fourth — differs from 4096.  (Frequencies summing to `4096 + k * 65536`
pass the check; see the counterexample.) -/
theorem rans_decode_header_errors (stream : List Nat) :
    (stream.length < 12 →
      ransDecode stream = .error "ransDecode: stream too short") ∧
    (12 ≤ stream.length →
      (readU16LEat stream 4 = 0 ∨ readU16LEat stream 6 = 0 ∨
        readU16LEat stream 8 = 0 ∨ readU16LEat stream 10 = 0) →
      ransDecode stream = .error "ransDecode: zero freq in header") ∧
    (12 ≤ stream.length →
      readU16LEat stream 4 ≠ 0 → readU16LEat stream 6 ≠ 0 →
      readU16LEat stream 8 ≠ 0 → readU16LEat stream 10 ≠ 0 →
      (ransCumTab ⟨readU16LEat stream 4, readU16LEat stream 6,
          readU16LEat stream 8, readU16LEat stream 10⟩).f3 +
        readU16LEat stream 10 ≠ TOTFREQ →
      ransDecode stream = .error "ransDecode: totalFreq != TOTFREQ") := by
  refine ⟨?_, ?_, ?_⟩
  · intro h
    simp [ransDecode, h]
  · intro hlen hz
    simp only [ransDecode]
    rw [if_neg (by omega), if_pos hz]
  · intro hlen h4 h6 h8 h10 htot
    simp only [ransDecode]
    rw [if_neg (by omega), if_neg (by simp [h4, h6, h8, h10]), if_pos htot]

/-- Witness for C5 at three concrete malformed streams: a 5-byte stream, a
12-byte header with a zero frequency, and a 12-byte header whose frequencies
`1, 1, 1, 1` total 4. -/
theorem rans_decode_header_errors_witness :
    ransDecode [0, 0, 0, 0, 0] = .error "ransDecode: stream too short" ∧
    ransDecode [0, 0, 0, 0, 0, 0, 1, 0, 1, 0, 1, 0] =
      .error "ransDecode: zero freq in header" ∧
    ransDecode [0, 0, 0, 0, 1, 0, 1, 0, 1, 0, 1, 0] =
      .error "ransDecode: totalFreq != TOTFREQ" :=
  ⟨(rans_decode_header_errors [0, 0, 0, 0, 0]).1 (by decide),
    (rans_decode_header_errors [0, 0, 0, 0, 0, 0, 1, 0, 1, 0, 1, 0]).2.1
      (by decide) (by decide),
    (rans_decode_header_errors [0, 0, 0, 0, 1, 0, 1, 0, 1, 0, 1, 0]).2.2
      (by decide) (by decide) (by decide) (by decide) (by decide) (by decide)⟩

/-- Both binarizations of an in-range sequence succeed, with total bit
lengths given by the per-symbol code lengths (1, 2, 3, 4 and 4, 3, 2, 1). -/
theorem binarizeSequence_lengths (s : List Int) (h : ∀ x ∈ s, 0 ≤ x ∧ x < 4) :
    ∃ bg bb, binarizeSequence s .Good = .ok bg ∧ binarizeSequence s .Bad = .ok bb ∧
      bg.length = s.count 0 + 2 * s.count 1 + 3 * s.count 2 + 4 * s.count 3 ∧
      bb.length = 4 * s.count 0 + 3 * s.count 1 + 2 * s.count 2 + s.count 3 := by
  induction s with
  | nil => exact ⟨[], [], rfl, rfl, by simp, by simp⟩
  | cons v rest ih =>
    have hv := h v (by simp)
    obtain ⟨bg, bb, hg, hb, hlg, hlb⟩ := ih (fun x hx => h x (by simp [hx]))
    have hcases : v = 0 ∨ v = 1 ∨ v = 2 ∨ v = 3 := by omega
    rcases hcases with rfl | rfl | rfl | rfl
    · refine ⟨[0] ++ bg, [1, 1, 1, 0] ++ bb, ?_, ?_, ?_, ?_⟩ <;>
        simp [binarizeSequence, binarizeSymbol, GOOD_TABLE, BAD_TABLE,
          Bind.bind, Except.bind, Pure.pure, Except.pure, hg, hb,
          List.count_cons, hlg, hlb] <;> omega
    · refine ⟨[1, 0] ++ bg, [1, 1, 0] ++ bb, ?_, ?_, ?_, ?_⟩ <;>
        simp [binarizeSequence, binarizeSymbol, GOOD_TABLE, BAD_TABLE,
          Bind.bind, Except.bind, Pure.pure, Except.pure, hg, hb,
          List.count_cons, hlg, hlb] <;> omega
    · refine ⟨[1, 1, 0] ++ bg, [1, 0] ++ bb, ?_, ?_, ?_, ?_⟩ <;>
        simp [binarizeSequence, binarizeSymbol, GOOD_TABLE, BAD_TABLE,
          Bind.bind, Except.bind, Pure.pure, Except.pure, hg, hb,
          List.count_cons, hlg, hlb] <;> omega
    · refine ⟨[1, 1, 1, 0] ++ bg, [0] ++ bb, ?_, ?_, ?_, ?_⟩ <;>
        simp [binarizeSequence, binarizeSymbol, GOOD_TABLE, BAD_TABLE,
          Bind.bind, Except.bind, Pure.pure, Except.pure, hg, hb,
          List.count_cons, hlg, hlb] <;> omega

/-- C9: for every in-range symbol sequence whose counts satisfy the skew
condition `3 * (n0 - n3) + (n1 - n2) > 0`, the efficient codebook produces a
strictly shorter total bit sequence than the inefficient one. -/
theorem binarize_cost_ordering (s : List Int) (h : ∀ x ∈ s, 0 ≤ x ∧ x < 4)
    (hskew : 0 < 3 * ((s.count 0 : Int) - s.count 3) +
      ((s.count 1 : Int) - s.count 2)) :
    ∃ bg bb, binarizeSequence s .Good = .ok bg ∧
      binarizeSequence s .Bad = .ok bb ∧ bg.length < bb.length := by
  obtain ⟨bg, bb, hg, hb, hlg, hlb⟩ := binarizeSequence_lengths s h
  exact ⟨bg, bb, hg, hb, by omega⟩

/-- Witness for C9 at a concrete 10-symbol input with empirical distribution
`0.7 / 0.1 / 0.1 / 0.1`. -/
theorem binarize_cost_ordering_witness :
    ((∀ x ∈ ([0, 0, 0, 0, 0, 0, 0, 1, 2, 3] : List Int), 0 ≤ x ∧ x < 4) ∧
      0 < 3 * ((([0, 0, 0, 0, 0, 0, 0, 1, 2, 3] : List Int).count 0 : Int) -
        ([0, 0, 0, 0, 0, 0, 0, 1, 2, 3] : List Int).count 3) +
        ((([0, 0, 0, 0, 0, 0, 0, 1, 2, 3] : List Int).count 1 : Int) -
          ([0, 0, 0, 0, 0, 0, 0, 1, 2, 3] : List Int).count 2)) ∧
    (∃ bg bb, binarizeSequence [0, 0, 0, 0, 0, 0, 0, 1, 2, 3] .Good = .ok bg ∧
      binarizeSequence [0, 0, 0, 0, 0, 0, 0, 1, 2, 3] .Bad = .ok bb ∧
      bg.length < bb.length) :=
  ⟨⟨by decide, by decide⟩,
    binarize_cost_ordering [0, 0, 0, 0, 0, 0, 0, 1, 2, 3] (by decide) (by decide)⟩

/-- 32-bit subtraction coincides with truncated subtraction when it cannot
underflow. -/
theorem sub32_eq (a b : Nat) (h1 : b ≤ a) (h2 : a < W32) : sub32 a b = a - b := by
  simp only [sub32, W32] at *
  omega

/-- The decoder renormalization loop restores `range` into `[2 ^ 24, 2 ^ 32)`
whenever the fuel dominates the iteration count. -/
theorem arithDecRenormGo_range (stream : List Nat) (fuel : Nat) :
    ∀ (low range code offset : Nat), range < 2 ^ 32 →
      2 ^ 24 ≤ range * 256 ^ fuel →
      2 ^ 24 ≤ (arithDecRenormGo stream fuel low range code offset).2.1 ∧
        (arithDecRenormGo stream fuel low range code offset).2.1 < 2 ^ 32 := by
  induction fuel with
  | zero =>
    intro low range code offset h2 hfuel
    simp only [arithDecRenormGo]
    simp only [pow_zero, Nat.mul_one] at hfuel
    exact ⟨hfuel, h2⟩
  | succ n ih =>
    intro low range code offset h2 hfuel
    rw [arithDecRenormGo]
    split
    · rename_i hlt
      have hshl : shl32 range 8 = range * 256 := by
        simp only [shl32, W32]
        exact Nat.mod_eq_of_lt (by omega)
      rw [hshl]
      apply ih
      · omega
      · have hp : range * 256 * 256 ^ n = range * 256 ^ (n + 1) := by ring
        rw [hp]
        exact hfuel
    · rename_i hge
      constructor
      · show 2 ^ 24 ≤ range
        omega
      · show range < 2 ^ 32
        exact h2

/-- The decoder bit loop never errors once the divisor is nonzero and
`count0` is a proper part of it, and it emits exactly one bit per iteration. -/
theorem arithDecLoop_ok (stream : List Nat) (total count0 : Nat)
    (htot : total ≠ 0) (hcnt : count0 < total) :
    ∀ (n low range code offset : Nat), 2 ^ 24 ≤ range → range < 2 ^ 32 →
      ∃ bits, arithDecLoop stream total count0 n low range code offset = .ok bits ∧
        bits.length = n := by
  intro n
  induction n with
  | zero =>
    intro low range code offset h1 h2
    exact ⟨[], rfl, rfl⟩
  | succ m ih =>
    intro low range code offset h1 h2
    have hdm : range / total * total ≤ range := Nat.div_mul_le_self range total
    have hkey : range / total * count0 + range / total ≤ range := by
      have hmono : range / total * (count0 + 1) ≤ range / total * total :=
        Nat.mul_le_mul_left _ hcnt
      rw [Nat.mul_succ] at hmono
      exact le_trans hmono hdm
    have hsle : range / total * count0 ≤ range :=
      le_trans (Nat.le_add_right _ _) hkey
    have hsplit_eq : (range / total * count0) % W32 = range / total * count0 :=
      Nat.mod_eq_of_lt (lt_of_le_of_lt hsle (by simpa [W32] using h2))
    by_cases hrel : sub32 code low < (range / total * count0) % W32
    · -- a 0 bit: the new range is `split`, which the comparison forces positive
      have hsp : 0 < (range / total * count0) % W32 :=
        Nat.lt_of_le_of_lt (Nat.zero_le _) hrel
      have hslt : (range / total * count0) % W32 < 2 ^ 32 := by
        rw [hsplit_eq]
        exact lt_of_le_of_lt hsle h2
      have hren := arithDecRenormGo_range stream 3 low
        ((range / total * count0) % W32) code offset hslt
        (by calc (2 : Nat) ^ 24 = 1 * 256 ^ 3 := by norm_num
            _ ≤ (range / total * count0) % W32 * 256 ^ 3 :=
              Nat.mul_le_mul_right _ hsp)
      obtain ⟨bits, hrec, hblen⟩ := ih
        (arithDecRenormGo stream 3 low ((range / total * count0) % W32) code offset).1
        (arithDecRenormGo stream 3 low ((range / total * count0) % W32) code offset).2.1
        (arithDecRenormGo stream 3 low ((range / total * count0) % W32) code offset).2.2.1
        (arithDecRenormGo stream 3 low ((range / total * count0) % W32) code offset).2.2.2
        hren.1 hren.2
      have hnz : ¬ (range / total * count0) % W32 = 0 := Nat.pos_iff_ne_zero.mp hsp
      refine ⟨(0 : Int) :: bits, ?_, by simp [hblen]⟩
      simp only [arithDecLoop, htot, hrel, hnz, if_true, if_false, ite_true,
        ite_false, hrec, Except.map]
    · -- a 1 bit: the new range is `range - split`, still positive
      have hle : (range / total * count0) % W32 ≤ range := by
        rw [hsplit_eq]
        exact hsle
      have hsub : sub32 range ((range / total * count0) % W32) =
          range - (range / total * count0) % W32 :=
        sub32_eq _ _ hle (by simpa [W32] using h2)
      have hpos : 0 < sub32 range ((range / total * count0) % W32) := by
        rw [hsub, hsplit_eq]
        rcases Nat.eq_zero_or_pos (range / total) with h0 | hp
        · rw [h0, Nat.zero_mul, Nat.sub_zero]
          omega
        · have hstep : 1 + range / total * count0 ≤
              range / total + range / total * count0 :=
            Nat.add_le_add_right hp _
          have hswap : range / total + range / total * count0 ≤ range := by
            rw [Nat.add_comm]
            exact hkey
          omega
      have hlt : sub32 range ((range / total * count0) % W32) < 2 ^ 32 := by
        rw [hsub]
        exact lt_of_le_of_lt (Nat.sub_le _ _) h2
      have hren := arithDecRenormGo_range stream 3
        (add32 low ((range / total * count0) % W32))
        (sub32 range ((range / total * count0) % W32)) code offset hlt
        (by calc (2 : Nat) ^ 24 = 1 * 256 ^ 3 := by norm_num
            _ ≤ sub32 range ((range / total * count0) % W32) * 256 ^ 3 :=
              Nat.mul_le_mul_right _ hpos)
      obtain ⟨bits, hrec, hblen⟩ := ih
        (arithDecRenormGo stream 3 (add32 low ((range / total * count0) % W32))
          (sub32 range ((range / total * count0) % W32)) code offset).1
        (arithDecRenormGo stream 3 (add32 low ((range / total * count0) % W32))
          (sub32 range ((range / total * count0) % W32)) code offset).2.1
        (arithDecRenormGo stream 3 (add32 low ((range / total * count0) % W32))
          (sub32 range ((range / total * count0) % W32)) code offset).2.2.1
        (arithDecRenormGo stream 3 (add32 low ((range / total * count0) % W32))
          (sub32 range ((range / total * count0) % W32)) code offset).2.2.2
        hren.1 hren.2
      have hnz : ¬ sub32 range ((range / total * count0) % W32) = 0 :=
        Nat.pos_iff_ne_zero.mp hpos
      refine ⟨(1 : Int) :: bits, ?_, by simp [hblen]⟩
      simp only [arithDecLoop, htot, hrel, hnz, if_true, if_false, ite_true,
        ite_false, hrec, Except.map]

/-- C10 (amended): for every stream of at least 16 bytes whose parsed
`count0` and `count1` are both nonzero and whose true sum fits in 32 bits
(so the `uint32_t` divisor `count0 + count1` does not wrap — wrapping to 0 is
division by zero in the source), `arithDecodeBits` raises no error — no
matter how large `numBits` is relative to the payload, since exhausted
payload reads shift in zero bytes — and returns exactly `numBits` bits. -/
theorem arith_decode_totality (stream : List Nat)
    (_hb : ∀ b ∈ stream, b < 256) (hlen : 16 ≤ stream.length)
    (hc0 : readU32LEat stream 4 ≠ 0) (hc1 : readU32LEat stream 8 ≠ 0)
    (hsum : readU32LEat stream 4 + readU32LEat stream 8 < 2 ^ 32) :
    ∃ bits, arithDecodeBits stream = .ok bits ∧
      bits.length = readU32LEat stream 0 := by
  have htoteq : (readU32LEat stream 4 + readU32LEat stream 8) % W32 =
      readU32LEat stream 4 + readU32LEat stream 8 := by
    simp only [W32]
    exact Nat.mod_eq_of_lt hsum
  have htot : (readU32LEat stream 4 + readU32LEat stream 8) % W32 ≠ 0 := by
    rw [htoteq]
    omega
  have hcnt : readU32LEat stream 4 <
      (readU32LEat stream 4 + readU32LEat stream 8) % W32 := by
    rw [htoteq]
    omega
  obtain ⟨bits, hloop, hblen⟩ := arithDecLoop_ok stream
    ((readU32LEat stream 4 + readU32LEat stream 8) % W32) (readU32LEat stream 4)
    htot hcnt (readU32LEat stream 0) 0 (2 ^ 32 - 1)
    (stream.getD 12 0 * 2 ^ 24 + stream.getD 13 0 * 2 ^ 16 +
      stream.getD 14 0 * 2 ^ 8 + stream.getD 15 0) 16
    (by norm_num) (by norm_num)
  refine ⟨bits, ?_, hblen⟩
  simp only [arithDecodeBits]
  rw [if_neg (by omega), if_neg (by simp [hc0, hc1]), if_neg (by omega)]
  exact hloop

/-- Witness for C10's amended statement at a concrete well-formed 16-byte
stream with `numBits = 3`, `count0 = 1`, `count1 = 1`. -/
theorem arith_decode_totality_witness :
    ((∀ b ∈ ([3, 0, 0, 0, 1, 0, 0, 0, 1, 0, 0, 0, 9, 9, 9, 9] : List Nat),
        b < 256) ∧
      16 ≤ ([3, 0, 0, 0, 1, 0, 0, 0, 1, 0, 0, 0, 9, 9, 9, 9] : List Nat).length ∧
      readU32LEat [3, 0, 0, 0, 1, 0, 0, 0, 1, 0, 0, 0, 9, 9, 9, 9] 4 ≠ 0 ∧
      readU32LEat [3, 0, 0, 0, 1, 0, 0, 0, 1, 0, 0, 0, 9, 9, 9, 9] 8 ≠ 0 ∧
      readU32LEat [3, 0, 0, 0, 1, 0, 0, 0, 1, 0, 0, 0, 9, 9, 9, 9] 4 +
        readU32LEat [3, 0, 0, 0, 1, 0, 0, 0, 1, 0, 0, 0, 9, 9, 9, 9] 8 < 2 ^ 32) ∧
    (∃ bits, arithDecodeBits [3, 0, 0, 0, 1, 0, 0, 0, 1, 0, 0, 0, 9, 9, 9, 9] =
        .ok bits ∧
      bits.length = readU32LEat [3, 0, 0, 0, 1, 0, 0, 0, 1, 0, 0, 0, 9, 9, 9, 9] 0) :=
  ⟨⟨by decide, by decide, by decide, by decide, by decide⟩,
    arith_decode_totality [3, 0, 0, 0, 1, 0, 0, 0, 1, 0, 0, 0, 9, 9, 9, 9]
      (by decide) (by decide) (by decide) (by decide) (by decide)⟩
